import Mathlib

/-!
Verification of the reconciliation core of the seller-apis repository
(files seller.py and market.py), shallowly embedded in Lean.

Modelling conventions:
* A canonical feed row (a watch record) keeps only the fields the sync
  logic reads: the product code, the price text and the quantity text.
  The source applies str() to the code at every use site, so the field
  stores the already-stringified code.
* Python int() applied to a string is modelled by pyInt: optional
  surrounding ASCII whitespace, an optional sign, then a nonempty run of
  ASCII decimal digits in which single underscores may separate digits.
  A failed parse (Python ValueError) is the None result.
* Functions that mutate their offer-id list argument in place
  (list.remove in create_stocks) are embedded in state-passing style:
  they return the produced list together with the final state of the
  offer-id list as the caller observes it after the call.
* Functions that can raise return Option; None is the propagated
  exception (ValueError from int(), i.e. the InvalidQuantity and
  InvalidInput conditions of the specification).
-/

namespace SellerApis

/-- ASCII whitespace accepted by Python int() around the literal. -/
def isPySpace (c : Char) : Bool :=
  c = ' ' || c = '\t' || c = '\n' || c = '\r' || c = '\x0b' || c = '\x0c'

/-- Numeric value of an ASCII digit character. -/
def digitVal (c : Char) : Nat := c.toNat - 48

/-- Digit-run parser for Python int(): after the first digit, digits
continue, with a single underscore allowed between two digits. -/
def pyDigitsAux : Nat → List Char → Option Nat
  | acc, [] => some acc
  | acc, c :: cs =>
    if c.isDigit then pyDigitsAux (10 * acc + digitVal c) cs
    else if c = '_' then
      match cs with
      | d :: cs2 => if d.isDigit then pyDigitsAux (10 * acc + digitVal d) cs2 else none
      | [] => none
    else none

/-- Unsigned core of Python int() on a character list: a nonempty digit
run, underscores only between digits. -/
def pyIntCore : List Char → Option Nat
  | [] => none
  | c :: cs => if c.isDigit then pyDigitsAux (digitVal c) cs else none

/-- Model of Python int(s) for a string s: strip surrounding whitespace,
read an optional sign, then the digit run. None models ValueError. -/
def pyInt (s : String) : Option Int :=
  let cs := ((s.data.dropWhile isPySpace).reverse.dropWhile isPySpace).reverse
  match cs with
  | '+' :: rest => (pyIntCore rest).map Int.ofNat
  | '-' :: rest => (pyIntCore rest).map (fun n => -(n : Int))
  | rest => (pyIntCore rest).map Int.ofNat

/-- One row of the canonical feed, keeping the three fields the sync
logic reads; kod is the stringified product code, tsena the price text,
kolichestvo the quantity text. -/
structure WatchRecord where
  kod : String
  tsena : String
  kolichestvo : String
deriving DecidableEq

/-- The inline quantity rule of create_stocks in both channels: the
sentinel string for more than ten maps to 100, the exact string for one
unit maps to 0, anything else goes through Python int(). -/
def normalizeQuantity (count : String) : Option Int :=
  if count = ">10" then some 100
  else if count = "1" then some 0
  else pyInt count

namespace Seller

/-- One stock entry of the OZON payload built by seller.create_stocks. -/
structure StockEntry where
  offer_id : String
  stock : Int
deriving DecidableEq

/-- The first loop of seller.create_stocks: walk the feed; a record
whose code is still in the offer-id list emits an entry with the
normalized quantity and removes that code (Python list.remove takes the
first occurrence, as List.erase does). Returns the matched entries and
the final state of the offer-id list; None is a propagated ValueError
from int(). -/
def createStocksLoop : List WatchRecord → List String → Option (List StockEntry × List String)
  | [], offerIds => some ([], offerIds)
  | w :: ws, offerIds =>
    if w.kod ∈ offerIds then
      match normalizeQuantity w.kolichestvo with
      | none => none
      | some q =>
        match createStocksLoop ws (offerIds.erase w.kod) with
        | none => none
        | some (stocks, rest) => some (⟨w.kod, q⟩ :: stocks, rest)
    else createStocksLoop ws offerIds

/-- seller.create_stocks: the matched entries followed by a zero stock
entry for every offer id left in the working list. The second component
is the final state of the offer-id list the caller passed (the source
mutates it in place). -/
def create_stocks (ws : List WatchRecord) (offerIds : List String) :
    Option (List StockEntry × List String) :=
  (createStocksLoop ws offerIds).map
    (fun p => (p.1 ++ p.2.map (fun oid => ⟨oid, 0⟩), p.2))

/-- Model of Python s.split(".")[0]: the characters before the first
dot, the whole string when no dot occurs. -/
def pySplitDot : List Char → List Char
  | [] => []
  | c :: cs => if c = '.' then [] else c :: pySplitDot cs

/-- seller.price_conversion: drop everything from the first dot on,
then delete every character that is not an ASCII digit (the regex
substitution of all characters outside 0-9 by the empty string). -/
def price_conversion (price : String) : String :=
  String.mk ((pySplitDot price.data).filter Char.isDigit)

/-- Specification reading of the price normalizer (section 4.1 of the
spec): discard everything from the first decimal point onward, then
strip every character that is not an ASCII digit from the remainder. -/
def priceConversionSpec (price : String) : String :=
  String.mk ((price.data.takeWhile (fun c => c ≠ '.')).filter Char.isDigit)

/-- One price entry of the OZON payload built by seller.create_prices. -/
structure PriceEntry where
  auto_action_enabled : String
  currency_code : String
  offer_id : String
  old_price : String
  price : String
deriving DecidableEq

/-- seller.create_prices: one entry per feed record whose code is a
member of the offer-id list; the list is only read, never changed. -/
def create_prices (ws : List WatchRecord) (offerIds : List String) : List PriceEntry :=
  match ws with
  | [] => []
  | w :: rest =>
    if w.kod ∈ offerIds then
      ⟨"UNKNOWN", "RUB", w.kod, "0", price_conversion w.tsena⟩ :: create_prices rest offerIds
    else create_prices rest offerIds

/-- One page of the OZON product listing as the enumeration loop reads
it: the offer ids of the items of the page, the reported total, and the
cursor for the next page. -/
structure Page where
  items : List String
  total : Nat
  last_id : String
deriving DecidableEq

/-- The while loop of seller.get_offer_ids over the successive pages
the marketplace returns: extend the accumulator with the items of the
next page and stop when the reported total equals the accumulated
count. None models the loop running past the supplied pages. -/
def getOfferIdsLoop : List Page → List String → Option (List String)
  | [], _ => none
  | p :: ps, acc =>
    if p.total = (acc ++ p.items).length then some (acc ++ p.items)
    else getOfferIdsLoop ps (acc ++ p.items)

/-- seller.get_offer_ids on a given page sequence: accumulate page
items starting from the empty list; the result keeps every occurrence
of every id, in page order. -/
def get_offer_ids (pages : List Page) : Option (List String) :=
  getOfferIdsLoop pages []

/-- seller.divide: the slices lst[i : i + n] for i = 0, n, 2n, ... of
the range-based loop; the empty sequence when the step is 0 (Python
range would reject that step). -/
def divide : List α → Nat → List (List α)
  | _, 0 => []
  | [], _ + 1 => []
  | x :: xs, n + 1 => (x :: xs).take (n + 1) :: divide ((x :: xs).drop (n + 1)) (n + 1)
termination_by l _ => l.length
decreasing_by
  simp only [List.length_drop, List.length_cons]
  omega

end Seller

namespace Market

/-- The six calendar fields of a Python datetime together with the
microsecond field that replace(microsecond = 0) clears. -/
structure PyDateTime where
  year : Nat
  month : Nat
  day : Nat
  hour : Nat
  minute : Nat
  second : Nat
  microsecond : Nat
deriving DecidableEq

/-- Zero-padded decimal rendering to two places. -/
def pad2 (n : Nat) : String :=
  if n < 10 then "0" ++ toString n else toString n

/-- Zero-padded decimal rendering to four places. -/
def pad4 (n : Nat) : String :=
  if n < 10 then "000" ++ toString n
  else if n < 100 then "00" ++ toString n
  else if n < 1000 then "0" ++ toString n
  else toString n

/-- Zero-padded decimal rendering to six places. -/
def pad6 (n : Nat) : String :=
  if n < 10 then "00000" ++ toString n
  else if n < 100 then "0000" ++ toString n
  else if n < 1000 then "000" ++ toString n
  else if n < 10000 then "00" ++ toString n
  else if n < 100000 then "0" ++ toString n
  else toString n

/-- Python datetime.isoformat(): date, the T separator, time, and the
six-digit fraction exactly when the microsecond field is nonzero. -/
def pyIsoformat (d : PyDateTime) : String :=
  pad4 d.year ++ "-" ++ pad2 d.month ++ "-" ++ pad2 d.day ++ "T" ++
    pad2 d.hour ++ ":" ++ pad2 d.minute ++ ":" ++ pad2 d.second ++
    (if d.microsecond = 0 then "" else "." ++ pad6 d.microsecond)

/-- The timestamp string market.create_stocks computes once per call:
isoformat of the captured instant with the microsecond field cleared,
with a trailing Z. -/
def stockTimestamp (now : PyDateTime) : String :=
  pyIsoformat ⟨now.year, now.month, now.day, now.hour, now.minute, now.second, 0⟩ ++ "Z"

/-- The inner item of a Yandex Market stock entry. -/
structure StockItem where
  count : Int
  type : String
  updatedAt : String
deriving DecidableEq

/-- One stock entry of the Yandex Market payload. -/
structure StockEntry where
  sku : String
  warehouseId : String
  items : List StockItem
deriving DecidableEq

/-- The matching loop of market.create_stocks, identical in control
flow to the seller loop but building Yandex Market entries carrying the
warehouse id and the shared timestamp string. -/
def createStocksLoop (wh ts : String) :
    List WatchRecord → List String → Option (List StockEntry × List String)
  | [], offerIds => some ([], offerIds)
  | w :: ws, offerIds =>
    if w.kod ∈ offerIds then
      match normalizeQuantity w.kolichestvo with
      | none => none
      | some q =>
        match createStocksLoop wh ts ws (offerIds.erase w.kod) with
        | none => none
        | some (stocks, rest) => some (⟨w.kod, wh, [⟨q, "FIT", ts⟩]⟩ :: stocks, rest)
    else createStocksLoop wh ts ws offerIds

/-- market.create_stocks: capture the timestamp once, run the matching
loop, then zero-fill every offer id left in the working list. The
second component is the final state of the offer-id list the caller
passed (the source mutates it in place). -/
def create_stocks (ws : List WatchRecord) (offerIds : List String)
    (wh : String) (now : PyDateTime) :
    Option (List StockEntry × List String) :=
  let date := stockTimestamp now
  (createStocksLoop wh date ws offerIds).map
    (fun p => (p.1 ++ p.2.map (fun oid => ⟨oid, wh, [⟨0, "FIT", date⟩]⟩), p.2))

/-- The price field of a Yandex Market price entry. -/
structure PriceValue where
  value : Int
  currencyId : String
deriving DecidableEq

/-- One price entry of the Yandex Market payload. -/
structure PriceEntry where
  id : String
  price : PriceValue
deriving DecidableEq

/-- market.create_prices: one entry per feed record whose code is a
member of the offer-id list, with the converted price parsed by Python
int(); None is the propagated ValueError when that parse fails. -/
def create_prices (ws : List WatchRecord) (offerIds : List String) :
    Option (List PriceEntry) :=
  match ws with
  | [] => some []
  | w :: rest =>
    if w.kod ∈ offerIds then
      match pyInt (Seller.price_conversion w.tsena) with
      | none => none
      | some v =>
        match create_prices rest offerIds with
        | none => none
        | some ps => some (⟨w.kod, ⟨v, "RUR"⟩⟩ :: ps)
    else create_prices rest offerIds

/-- One page of the Yandex Market listing as the enumeration loop reads
it: the shop skus of the entries of the page and the next-page token. -/
structure Page where
  entries : List String
  nextPageToken : String
deriving DecidableEq

/-- The while loop of market.get_offer_ids: extend the accumulator with
the entries of the next page and stop when the next-page token is
empty. None models the loop running past the supplied pages. -/
def getOfferIdsLoop : List Page → List String → Option (List String)
  | [], _ => none
  | p :: ps, acc =>
    if p.nextPageToken = "" then some (acc ++ p.entries)
    else getOfferIdsLoop ps (acc ++ p.entries)

/-- market.get_offer_ids on a given page sequence: accumulate page
entries starting from the empty list; the result keeps every occurrence
of every id, in page order. -/
def get_offer_ids (pages : List Page) : Option (List String) :=
  getOfferIdsLoop pages []

end Market

/-! Helper lemmas shared by the claim theorems. -/

/-- The seller matching loop together with the leftover working list is
a permutation of the starting offer-id list. -/
theorem seller_loop_perm {ws : List WatchRecord} {offerIds rest : List String}
    {stocks : List Seller.StockEntry}
    (h : Seller.createStocksLoop ws offerIds = some (stocks, rest)) :
    (stocks.map Seller.StockEntry.offer_id ++ rest).Perm offerIds := by
  induction ws generalizing offerIds stocks rest with
  | nil =>
    simp only [Seller.createStocksLoop, Option.some.injEq, Prod.mk.injEq] at h
    obtain ⟨h1, h2⟩ := h
    subst h1; subst h2
    simp
  | cons w ws ih =>
    simp only [Seller.createStocksLoop] at h
    by_cases hmem : w.kod ∈ offerIds
    · rw [if_pos hmem] at h
      cases hq : normalizeQuantity w.kolichestvo with
      | none => rw [hq] at h; cases h
      | some q =>
        rw [hq] at h
        cases hrec : Seller.createStocksLoop ws (offerIds.erase w.kod) with
        | none => rw [hrec] at h; cases h
        | some p =>
          obtain ⟨s, r⟩ := p
          rw [hrec] at h
          simp only [Option.some.injEq, Prod.mk.injEq] at h
          obtain ⟨hs, hr⟩ := h
          subst hs; subst hr
          have hperm := ih hrec
          simp only [List.map_cons, List.cons_append]
          exact (hperm.cons w.kod).trans (List.perm_cons_erase hmem).symm
    · rw [if_neg hmem] at h
      exact ih h

/-- The offer ids of the full seller stock list are a permutation of
the offer-id list the caller passed. -/
theorem seller_create_stocks_perm {ws : List WatchRecord} {offerIds rest : List String}
    {stocks : List Seller.StockEntry}
    (h : Seller.create_stocks ws offerIds = some (stocks, rest)) :
    (stocks.map Seller.StockEntry.offer_id).Perm offerIds := by
  simp only [Seller.create_stocks, Option.map_eq_some'] at h
  obtain ⟨⟨s, r⟩, hloop, heq⟩ := h
  simp only [Prod.mk.injEq] at heq
  obtain ⟨hs, hr⟩ := heq
  subst hs; subst hr
  have hperm := seller_loop_perm hloop
  have hmm : List.map Seller.StockEntry.offer_id
      (List.map (fun oid => Seller.StockEntry.mk oid 0) r) = r := by
    simp [List.map_map, Function.comp_def]
  rw [List.map_append, hmm]
  exact hperm

/-- The market matching loop builds, entry for entry, the market shape
of what the seller matching loop builds from the same inputs. -/
theorem market_loop_eq (wh ts : String) (ws : List WatchRecord) (offerIds : List String) :
    Market.createStocksLoop wh ts ws offerIds =
      (Seller.createStocksLoop ws offerIds).map
        (fun p => (p.1.map (fun e => Market.StockEntry.mk e.offer_id wh [⟨e.stock, "FIT", ts⟩]),
                   p.2)) := by
  induction ws generalizing offerIds with
  | nil => simp [Market.createStocksLoop, Seller.createStocksLoop]
  | cons w ws ih =>
    simp only [Market.createStocksLoop, Seller.createStocksLoop]
    by_cases hmem : w.kod ∈ offerIds
    · rw [if_pos hmem, if_pos hmem]
      cases hq : normalizeQuantity w.kolichestvo with
      | none => simp
      | some q =>
        rw [ih]
        cases hrec : Seller.createStocksLoop ws (offerIds.erase w.kod) with
        | none => simp
        | some p => obtain ⟨s, r⟩ := p; simp
    · rw [if_neg hmem, if_neg hmem]
      exact ih offerIds

/-- market.create_stocks is the market-shaped image of
seller.create_stocks on the same feed and offer-id list. -/
theorem market_create_stocks_eq (ws : List WatchRecord) (offerIds : List String)
    (wh : String) (now : Market.PyDateTime) :
    Market.create_stocks ws offerIds wh now =
      (Seller.create_stocks ws offerIds).map
        (fun q => (q.1.map (fun e =>
            Market.StockEntry.mk e.offer_id wh [⟨e.stock, "FIT", Market.stockTimestamp now⟩]),
          q.2)) := by
  simp only [Market.create_stocks, Seller.create_stocks, market_loop_eq]
  cases Seller.createStocksLoop ws offerIds with
  | none => simp
  | some p => obtain ⟨s, r⟩ := p; simp [List.map_map, Function.comp]

/-! Claim theorems. -/

/-- Claim C1: for every canonical record list and every duplicate-free
enumerated offer-id list, the stock list returned by create_stocks (in
either channel) has exactly one entry per enumerated offer id and no
entry for any other id: its offer ids are a permutation of the
enumerated list, and each id counts one when enumerated, zero
otherwise. -/
theorem C1_stocks_offer_id_set
    (ws : List WatchRecord) (offerIds : List String) (hnd : offerIds.Nodup)
    (stocks : List Seller.StockEntry) (rest : List String)
    (h : Seller.create_stocks ws offerIds = some (stocks, rest))
    (wh : String) (now : Market.PyDateTime)
    (mstocks : List Market.StockEntry) (mrest : List String)
    (hm : Market.create_stocks ws offerIds wh now = some (mstocks, mrest)) :
    (stocks.map Seller.StockEntry.offer_id).Perm offerIds ∧
    (∀ oid, (stocks.map Seller.StockEntry.offer_id).count oid
        = if oid ∈ offerIds then 1 else 0) ∧
    (mstocks.map Market.StockEntry.sku).Perm offerIds ∧
    (∀ oid, (mstocks.map Market.StockEntry.sku).count oid
        = if oid ∈ offerIds then 1 else 0) := by
  have hperm := seller_create_stocks_perm h
  rw [market_create_stocks_eq, Option.map_eq_some'] at hm
  obtain ⟨⟨s, r⟩, hsell, heq⟩ := hm
  simp only [Prod.mk.injEq] at heq
  obtain ⟨hms, hmr⟩ := heq
  have hsperm := seller_create_stocks_perm hsell
  have hmap : mstocks.map Market.StockEntry.sku = s.map Seller.StockEntry.offer_id := by
    subst hms
    simp [List.map_map, Function.comp_def]
  have hmperm : (mstocks.map Market.StockEntry.sku).Perm offerIds := by
    rw [hmap]
    exact hsperm
  have hcount : ∀ l : List String, l.Perm offerIds →
      ∀ oid, l.count oid = if oid ∈ offerIds then 1 else 0 := by
    intro l hp oid
    rw [hp.count_eq oid]
    by_cases hmem : oid ∈ offerIds
    · rw [if_pos hmem]
      exact List.count_eq_one_of_mem hnd hmem
    · rw [if_neg hmem]
      exact List.count_eq_zero_of_not_mem hmem
  exact ⟨hperm, hcount _ hperm, hmperm, hcount _ hmperm⟩

/-- Concrete instance of claim C1 on the docstring example. -/
theorem C1_stocks_offer_id_set_witness :
    (["73397", "73398"] : List String).Nodup ∧
    Seller.create_stocks [⟨"73397", "22990", ">10"⟩] ["73397", "73398"]
      = some ([⟨"73397", 100⟩, ⟨"73398", 0⟩], ["73398"]) ∧
    (([⟨"73397", 100⟩, ⟨"73398", 0⟩] : List Seller.StockEntry).map
      Seller.StockEntry.offer_id).Perm ["73397", "73398"] :=
  ⟨by decide, by decide,
    (C1_stocks_offer_id_set [⟨"73397", "22990", ">10"⟩] ["73397", "73398"] (by decide)
      [⟨"73397", 100⟩, ⟨"73398", 0⟩] ["73398"] (by decide)
      "WID" ⟨2025, 2, 6, 8, 53, 21, 0⟩
      [⟨"73397", "WID", [⟨100, "FIT", "2025-02-06T08:53:21Z"⟩]⟩,
       ⟨"73398", "WID", [⟨0, "FIT", "2025-02-06T08:53:21Z"⟩]⟩] ["73398"]
      (by decide)).1⟩

/-- Claim C2 evaluation: create_stocks does not work on a private copy
of the offer-id list: at the docstring input, in both channels, the
final state of the list the caller passed has lost the matched id, so
it differs from what the caller supplied before the call. -/
theorem C2_offer_ids_mutated :
    Seller.create_stocks [⟨"73397", "22990", ">10"⟩] ["73397", "73398"]
      = some ([⟨"73397", 100⟩, ⟨"73398", 0⟩], ["73398"]) ∧
    Market.create_stocks [⟨"73397", "22990", ">10"⟩] ["73397", "73398"] "WID"
        ⟨2025, 2, 6, 8, 53, 21, 0⟩
      = some ([⟨"73397", "WID", [⟨100, "FIT", "2025-02-06T08:53:21Z"⟩]⟩,
               ⟨"73398", "WID", [⟨0, "FIT", "2025-02-06T08:53:21Z"⟩]⟩], ["73398"]) ∧
    (["73398"] : List String) ≠ ["73397", "73398"] := by
  refine ⟨by decide, by decide, by decide⟩

/-- Claim C3: quantity normalization maps the sentinel string for more
than ten to 100 and the exact string for one unit to 0; every other
text goes through the Python integer parse, and it fails exactly when
that parse fails. -/
theorem C3_quantity_normalization (s : String) :
    normalizeQuantity ">10" = some 100 ∧
    normalizeQuantity "1" = some 0 ∧
    normalizeQuantity "7" = some 7 ∧
    normalizeQuantity "0" = some 0 ∧
    (s ≠ ">10" → s ≠ "1" → normalizeQuantity s = pyInt s) ∧
    (s ≠ ">10" → s ≠ "1" → (normalizeQuantity s = none ↔ pyInt s = none)) := by
  refine ⟨by decide, by decide, by decide, by decide, ?_, ?_⟩ <;>
    intro h1 h2 <;>
    simp [normalizeQuantity, h1, h2]

/-- Concrete instance of claim C3 at a plain numeral. -/
theorem C3_quantity_normalization_witness :
    ("5" : String) ≠ ">10" ∧ ("5" : String) ≠ "1" ∧
    normalizeQuantity "5" = pyInt "5" :=
  ⟨by decide, by decide,
    (C3_quantity_normalization "5").2.2.2.2.1 (by decide) (by decide)⟩

/-- The recursive model of Python split(".")[0] is the longest prefix
before a dot. -/
theorem pySplitDot_eq_takeWhile (cs : List Char) :
    Seller.pySplitDot cs = cs.takeWhile (fun c => c ≠ '.') := by
  induction cs with
  | nil => rfl
  | cons c cs ih =>
    simp only [Seller.pySplitDot, List.takeWhile_cons]
    by_cases hc : c = '.'
    · simp [hc]
    · simp [hc, ih]

/-- On a list of digit characters the split model keeps everything. -/
theorem pySplitDot_of_digits {cs : List Char} (h : ∀ c ∈ cs, c.isDigit) :
    Seller.pySplitDot cs = cs := by
  induction cs with
  | nil => rfl
  | cons c cs ih =>
    have hcd : c.isDigit := h c (List.mem_cons_self c cs)
    have hc : c ≠ '.' := by
      intro hc
      rw [hc] at hcd
      exact absurd hcd (by decide)
    simp only [Seller.pySplitDot, if_neg hc]
    rw [ih (fun d hd => h d (List.mem_cons_of_mem c hd))]

/-- Claim C4: price_conversion discards everything from the first dot
onward, strips every character that is not an ASCII digit from the
remainder, returns a string of digits, maps the docstring examples as
expected, and returns purely numeric input unchanged. -/
theorem C4_price_conversion (s t : String) (hdig : ∀ c ∈ t.data, c.isDigit) :
    Seller.price_conversion s = Seller.priceConversionSpec s ∧
    (∀ c ∈ (Seller.price_conversion s).data, c.isDigit) ∧
    Seller.price_conversion "22\x27990.00 руб." = "22990" ∧
    Seller.price_conversion "5.50 руб." = "5" ∧
    Seller.price_conversion t = t := by
  refine ⟨?_, ?_, by decide, by decide, ?_⟩
  · simp only [Seller.price_conversion, Seller.priceConversionSpec, pySplitDot_eq_takeWhile]
  · intro c hc
    simp only [Seller.price_conversion] at hc
    exact (List.mem_filter.mp hc).2
  · simp only [Seller.price_conversion, pySplitDot_of_digits hdig]
    rw [List.filter_eq_self.mpr hdig]

/-- Concrete instance of claim C4 on a purely numeric string. -/
theorem C4_price_conversion_witness :
    (∀ c ∈ ("12345" : String).data, c.isDigit) ∧
    Seller.price_conversion "12345" = "12345" :=
  ⟨by decide, (C4_price_conversion "x" "12345" (by decide)).2.2.2.2⟩

/-- The offer ids priced by seller.create_prices are exactly the codes
of the feed records that pass the membership test, in feed order. -/
theorem seller_prices_map (ws : List WatchRecord) (offerIds : List String) :
    (Seller.create_prices ws offerIds).map Seller.PriceEntry.offer_id
      = (ws.filter (fun w => decide (w.kod ∈ offerIds))).map WatchRecord.kod := by
  induction ws with
  | nil => rfl
  | cons w ws ih =>
    simp only [Seller.create_prices, List.filter_cons]
    by_cases hmem : w.kod ∈ offerIds
    · simp [hmem, ih]
    · simp [hmem, ih]

/-- seller.create_prices distributes over feed concatenation: pricing
the early records does not change the offer-id list the later records
are tested against. -/
theorem seller_prices_append (ws1 ws2 : List WatchRecord) (offerIds : List String) :
    Seller.create_prices (ws1 ++ ws2) offerIds
      = Seller.create_prices ws1 offerIds ++ Seller.create_prices ws2 offerIds := by
  induction ws1 with
  | nil => rfl
  | cons w ws ih =>
    simp only [List.cons_append, Seller.create_prices]
    by_cases hmem : w.kod ∈ offerIds
    · simp [hmem, ih]
    · simp [hmem, ih]

/-- The ids priced by market.create_prices, when it returns a list, are
exactly the codes of the feed records that pass the membership test. -/
theorem market_prices_map {ws : List WatchRecord} {offerIds : List String}
    {ps : List Market.PriceEntry}
    (h : Market.create_prices ws offerIds = some ps) :
    ps.map Market.PriceEntry.id
      = (ws.filter (fun w => decide (w.kod ∈ offerIds))).map WatchRecord.kod := by
  induction ws generalizing ps with
  | nil =>
    simp only [Market.create_prices, Option.some.injEq] at h
    subst h
    rfl
  | cons w ws ih =>
    simp only [Market.create_prices] at h
    by_cases hmem : w.kod ∈ offerIds
    · rw [if_pos hmem] at h
      cases hv : pyInt (Seller.price_conversion w.tsena) with
      | none => rw [hv] at h; cases h
      | some v =>
        rw [hv] at h
        cases hrec : Market.create_prices ws offerIds with
        | none => rw [hrec] at h; cases h
        | some qs =>
          rw [hrec] at h
          simp only [Option.some.injEq] at h
          subst h
          simp [List.filter_cons, hmem, ih hrec]
    · rw [if_neg hmem] at h
      simp [List.filter_cons, hmem, ih h]

/-- Claim C5: create_prices emits one entry per feed record whose code
is a member of the offer-id list (a read-only test: earlier records do
not change what later records see), and an enumerated offer with no
matching record gets no entry; same for the market channel. -/
theorem C5_prices_membership (ws ws2 : List WatchRecord) (offerIds : List String) :
    (Seller.create_prices ws offerIds).map Seller.PriceEntry.offer_id
      = (ws.filter (fun w => decide (w.kod ∈ offerIds))).map WatchRecord.kod ∧
    Seller.create_prices (ws ++ ws2) offerIds
      = Seller.create_prices ws offerIds ++ Seller.create_prices ws2 offerIds ∧
    (∀ oid, (∀ w ∈ ws, w.kod ≠ oid) →
      oid ∉ (Seller.create_prices ws offerIds).map Seller.PriceEntry.offer_id) ∧
    (∀ ps, Market.create_prices ws offerIds = some ps →
      ps.map Market.PriceEntry.id
        = (ws.filter (fun w => decide (w.kod ∈ offerIds))).map WatchRecord.kod) ∧
    (∀ ps oid, Market.create_prices ws offerIds = some ps →
      (∀ w ∈ ws, w.kod ≠ oid) → oid ∉ ps.map Market.PriceEntry.id) := by
  refine ⟨seller_prices_map ws offerIds, seller_prices_append ws ws2 offerIds, ?_,
    fun ps h => market_prices_map h, ?_⟩
  · intro oid hno hmem
    rw [seller_prices_map] at hmem
    obtain ⟨w, hw, hkod⟩ := List.mem_map.mp hmem
    exact hno w (List.mem_of_mem_filter hw) hkod
  · intro ps oid h hno hmem
    rw [market_prices_map h] at hmem
    obtain ⟨w, hw, hkod⟩ := List.mem_map.mp hmem
    exact hno w (List.mem_of_mem_filter hw) hkod

/-- Concrete instance of claim C5: an enumerated offer with no matching
feed record is absent from the price list. -/
theorem C5_prices_membership_witness :
    (∀ w ∈ [(⟨"73397", "22\x27990.00 руб.", ">10"⟩ : WatchRecord)], w.kod ≠ "73398") ∧
    "73398" ∉ (Seller.create_prices [⟨"73397", "22\x27990.00 руб.", ">10"⟩]
      ["73397", "73398"]).map Seller.PriceEntry.offer_id :=
  ⟨by decide,
    (C5_prices_membership [⟨"73397", "22\x27990.00 руб.", ">10"⟩] []
      ["73397", "73398"]).2.2.1 "73398" (by decide)⟩

/-- The seller enumeration loop returns the accumulator followed by
the concatenated items of the pages it consumed. -/
theorem seller_enum_concat {pages : List Seller.Page} {acc out : List String}
    (h : Seller.getOfferIdsLoop pages acc = some out) :
    ∃ k, k ≤ pages.length ∧
      out = acc ++ ((pages.take k).map Seller.Page.items).flatten := by
  induction pages generalizing acc with
  | nil => cases h
  | cons p ps ih =>
    simp only [Seller.getOfferIdsLoop] at h
    by_cases hc : p.total = (acc ++ p.items).length
    · rw [if_pos hc] at h
      simp only [Option.some.injEq] at h
      subst h
      exact ⟨1, by simp, by simp⟩
    · rw [if_neg hc] at h
      obtain ⟨k, hk, hout⟩ := ih h
      exact ⟨k + 1, by simpa using hk, by simpa using hout⟩

/-- The market enumeration loop returns the accumulator followed by
the concatenated entries of the pages it consumed. -/
theorem market_enum_concat {pages : List Market.Page} {acc out : List String}
    (h : Market.getOfferIdsLoop pages acc = some out) :
    ∃ k, k ≤ pages.length ∧
      out = acc ++ ((pages.take k).map Market.Page.entries).flatten := by
  induction pages generalizing acc with
  | nil => cases h
  | cons p ps ih =>
    simp only [Market.getOfferIdsLoop] at h
    by_cases hc : p.nextPageToken = ""
    · rw [if_pos hc] at h
      simp only [Option.some.injEq] at h
      subst h
      exact ⟨1, by simp, by simp⟩
    · rw [if_neg hc] at h
      obtain ⟨k, hk, hout⟩ := ih h
      exact ⟨k + 1, by simpa using hk, by simpa using hout⟩

/-- Counterexample to claim C6 as stated: when the marketplace returns
the same offer id on two pages, seller.get_offer_ids keeps both
occurrences, so the id occurs twice in the result. -/
theorem C6_enumeration_duplicates_cex :
    Seller.get_offer_ids [⟨["A"], 2, "x"⟩, ⟨["A"], 2, ""⟩] = some ["A", "A"] ∧
    (["A", "A"] : List String).count "A" = 2 := by
  refine ⟨by decide, by decide⟩

/-- Claim C6 amended: get_offer_ids returns the concatenation of the
item ids of the pages it consumed, in page order, preserving every
occurrence (a list, not a set), in both channels. -/
theorem C6_enumeration_concat (pages : List Seller.Page) (mpages : List Market.Page)
    (out mout : List String)
    (h : Seller.get_offer_ids pages = some out)
    (hm : Market.get_offer_ids mpages = some mout) :
    (∃ k, k ≤ pages.length ∧ out = ((pages.take k).map Seller.Page.items).flatten) ∧
    (∃ k, k ≤ mpages.length ∧ mout = ((mpages.take k).map Market.Page.entries).flatten) := by
  constructor
  · obtain ⟨k, hk, hout⟩ := seller_enum_concat h
    exact ⟨k, hk, by simpa using hout⟩
  · obtain ⟨k, hk, hout⟩ := market_enum_concat hm
    exact ⟨k, hk, by simpa using hout⟩

/-- Concrete instance of amended claim C6 on a one-page catalog. -/
theorem C6_enumeration_concat_witness :
    Seller.get_offer_ids [⟨["73397"], 1, "x"⟩] = some ["73397"] ∧
    ∃ k, k ≤ ([(⟨["73397"], 1, "x"⟩ : Seller.Page)]).length ∧
      ["73397"] = (([(⟨["73397"], 1, "x"⟩ : Seller.Page)].take k).map Seller.Page.items).flatten :=
  ⟨by decide,
    (C6_enumeration_concat [⟨["73397"], 1, "x"⟩] [⟨["73397"], ""⟩] ["73397"] ["73397"]
      (by decide) (by decide)).1⟩

/-- Ceiling-division step: removing one full chunk of size m lowers
the chunk count by one. -/
theorem ceil_div_step {L m : Nat} (hL : 1 ≤ L) (hm : 1 ≤ m) :
    (L - m + m - 1) / m + 1 = (L + m - 1) / m := by
  rcases le_or_lt L m with hle | hlt
  · have h1 : L - m + m - 1 = (m - 1) := by omega
    have h2 : L + m - 1 = (L - 1) + m := by omega
    rw [h1, h2, Nat.add_div_right _ hm, Nat.div_eq_of_lt (by omega),
      Nat.div_eq_of_lt (by omega)]
  · have h2 : L - m + m - 1 = L - 1 := by omega
    have h3 : L + m - 1 = (L - 1) + m := by omega
    rw [h2, h3, Nat.add_div_right _ hm]

/-- Concatenating the chunks of divide reproduces the list. -/
theorem divide_flatten (l : List α) (n : Nat) (h : 1 ≤ n) :
    (Seller.divide l n).flatten = l := by
  revert h
  induction l, n using Seller.divide.induct with
  | case1 l => intro h; exact absurd h (by omega)
  | case2 n => intro _; simp [Seller.divide]
  | case3 x xs n ih =>
    intro h
    rw [Seller.divide]
    simp only [List.flatten_cons]
    rw [ih h, List.take_append_drop]

/-- divide produces the ceiling of length over chunk size chunks. -/
theorem divide_length (l : List α) (n : Nat) (h : 1 ≤ n) :
    (Seller.divide l n).length = (l.length + n - 1) / n := by
  revert h
  induction l, n using Seller.divide.induct with
  | case1 l => intro h; exact absurd h (by omega)
  | case2 n =>
    intro _
    simp only [Seller.divide, List.length_nil]
    rw [Nat.div_eq_of_lt (by omega)]
  | case3 x xs n ih =>
    intro h
    rw [Seller.divide]
    simp only [List.length_cons]
    rw [ih h, List.length_drop]
    exact ceil_div_step (by simp) (by omega)

/-- divide of a nonempty list with positive chunk size is nonempty. -/
theorem divide_ne_nil {l : List α} {n : Nat} (h1 : 1 ≤ n) (h2 : l ≠ []) :
    Seller.divide l n ≠ [] := by
  match l, n with
  | _, 0 => exact absurd h1 (by omega)
  | [], _ + 1 => exact absurd rfl h2
  | x :: xs, n + 1 =>
    rw [Seller.divide]
    simp

/-- Every chunk before the last one has exactly the chunk size. -/
theorem divide_dropLast (l : List α) (n : Nat) (h : 1 ≤ n) :
    ∀ c ∈ (Seller.divide l n).dropLast, c.length = n := by
  revert h
  induction l, n using Seller.divide.induct with
  | case1 l => intro h; exact absurd h (by omega)
  | case2 n => intro _ c hc; simp [Seller.divide] at hc
  | case3 x xs n ih =>
    intro h c hc
    rw [Seller.divide] at hc
    rcases hrec : Seller.divide ((x :: xs).drop (n + 1)) (n + 1) with _ | ⟨r, rs⟩
    · rw [hrec] at hc
      simp at hc
    · rw [hrec] at hc
      rw [List.dropLast_cons₂] at hc
      have hd : (x :: xs).drop (n + 1) ≠ [] := by
        intro hnil
        rw [hnil] at hrec
        simp [Seller.divide] at hrec
      have hlen : n + 1 < (x :: xs).length := by
        have := List.length_drop (n + 1) (x :: xs)
        have hpos : 0 < ((x :: xs).drop (n + 1)).length := List.length_pos.mpr hd
        omega
      rcases List.mem_cons.mp hc with hceq | hctail
      · subst hceq
        rw [List.length_take]
        omega
      · exact ih h c (by rw [hrec]; exact hctail)

/-- When the chunk size divides the length, every chunk is full. -/
theorem divide_full (l : List α) (n : Nat) (h : 1 ≤ n) (hd : n ∣ l.length) :
    ∀ c ∈ Seller.divide l n, c.length = n := by
  revert h hd
  induction l, n using Seller.divide.induct with
  | case1 l => intro h _; exact absurd h (by omega)
  | case2 n => intro _ _ c hc; simp [Seller.divide] at hc
  | case3 x xs n ih =>
    intro h hd c hc
    rw [Seller.divide] at hc
    have hle : n + 1 ≤ (x :: xs).length := Nat.le_of_dvd (by simp) hd
    rcases List.mem_cons.mp hc with hceq | hctail
    · subst hceq
      rw [List.length_take]
      omega
    · have hd2 : (n + 1) ∣ ((x :: xs).drop (n + 1)).length := by
        rw [List.length_drop]
        exact Nat.dvd_sub hle hd dvd_rfl
      exact ih h hd2 c hctail

/-- Claim C7: for chunk size at least one, divide yields the ceiling
of length over size contiguous chunks in order, all of full size except
possibly the last, with no short final chunk when the size divides the
length; the empty list yields no chunks and concatenating the chunks
reproduces the input; the ten-element example splits as documented. -/
theorem C7_divide_chunks (lst : List α) (n : Nat) (h : 1 ≤ n) :
    Seller.divide ([] : List α) n = [] ∧
    (Seller.divide lst n).flatten = lst ∧
    (Seller.divide lst n).length = (lst.length + n - 1) / n ∧
    (∀ c ∈ (Seller.divide lst n).dropLast, c.length = n) ∧
    (n ∣ lst.length → ∀ c ∈ Seller.divide lst n, c.length = n) ∧
    Seller.divide ([1, 2, 3, 4, 5, 6, 7, 8, 9, 10] : List Nat) 3
      = [[1, 2, 3], [4, 5, 6], [7, 8, 9], [10]] := by
  refine ⟨?_, divide_flatten lst n h, divide_length lst n h, divide_dropLast lst n h,
    divide_full lst n h, ?_⟩
  · cases n with
    | zero => simp [Seller.divide]
    | succ n => simp [Seller.divide]
  · simp [Seller.divide]

/-- Concrete instance of claim C7 on the ten-element example. -/
theorem C7_divide_chunks_witness :
    1 ≤ 3 ∧
    (Seller.divide ([1, 2, 3, 4, 5, 6, 7, 8, 9, 10] : List Nat) 3).flatten
      = [1, 2, 3, 4, 5, 6, 7, 8, 9, 10] :=
  ⟨by decide, (C7_divide_chunks [1, 2, 3, 4, 5, 6, 7, 8, 9, 10] 3 (by decide)).2.1⟩

/-- Claim C8: every stock entry produced by one market.create_stocks
call carries the one timestamp captured at the start of the call; that
timestamp ignores the microsecond field (second-level precision) and is
the ISO-8601 date-time of the captured instant with a trailing Z. -/
theorem C8_timestamp_once (ws : List WatchRecord) (offerIds : List String)
    (wh : String) (now : Market.PyDateTime)
    (mstocks : List Market.StockEntry) (mrest : List String)
    (hm : Market.create_stocks ws offerIds wh now = some (mstocks, mrest)) :
    (∀ e ∈ mstocks, ∀ it ∈ e.items, it.updatedAt = Market.stockTimestamp now) ∧
    (∀ e1 ∈ mstocks, ∀ e2 ∈ mstocks, ∀ i1 ∈ e1.items, ∀ i2 ∈ e2.items,
      i1.updatedAt = i2.updatedAt) ∧
    Market.stockTimestamp now
      = Market.stockTimestamp
          ⟨now.year, now.month, now.day, now.hour, now.minute, now.second, 0⟩ ∧
    Market.stockTimestamp now
      = Market.pad4 now.year ++ "-" ++ Market.pad2 now.month ++ "-" ++ Market.pad2 now.day
        ++ "T" ++ Market.pad2 now.hour ++ ":" ++ Market.pad2 now.minute ++ ":"
        ++ Market.pad2 now.second ++ "Z" := by
  rw [market_create_stocks_eq, Option.map_eq_some'] at hm
  obtain ⟨⟨s, r⟩, hsell, heq⟩ := hm
  simp only [Prod.mk.injEq] at heq
  obtain ⟨hms, hmr⟩ := heq
  have hone : ∀ e ∈ mstocks, ∀ it ∈ e.items, it.updatedAt = Market.stockTimestamp now := by
    intro e he it hit
    subst hms
    obtain ⟨e0, _, he0⟩ := List.mem_map.mp he
    subst he0
    simp only [List.mem_singleton] at hit
    subst hit
    rfl
  refine ⟨hone, ?_, rfl, ?_⟩
  · intro e1 he1 e2 he2 i1 hi1 i2 hi2
    rw [hone e1 he1 i1 hi1, hone e2 he2 i2 hi2]
  · simp [Market.stockTimestamp, Market.pyIsoformat]

/-- Concrete instance of claim C8: a nonzero microsecond field does not
change the emitted timestamp. -/
theorem C8_timestamp_once_witness :
    Market.create_stocks [⟨"73397", "22990", ">10"⟩] ["73397"] "WID"
        ⟨2025, 2, 6, 8, 53, 21, 456⟩
      = some ([⟨"73397", "WID", [⟨100, "FIT", "2025-02-06T08:53:21Z"⟩]⟩], []) ∧
    Market.stockTimestamp ⟨2025, 2, 6, 8, 53, 21, 456⟩
      = Market.stockTimestamp ⟨2025, 2, 6, 8, 53, 21, 0⟩ :=
  ⟨by decide,
    (C8_timestamp_once [⟨"73397", "22990", ">10"⟩] ["73397"] "WID"
      ⟨2025, 2, 6, 8, 53, 21, 456⟩
      [⟨"73397", "WID", [⟨100, "FIT", "2025-02-06T08:53:21Z"⟩]⟩] []
      (by decide)).2.2.1⟩

/-- A feed record with pairwise-distinct codes whose code is enumerated
and whose quantity text does not normalize makes the seller matching
loop fail. -/
theorem seller_loop_abort {ws : List WatchRecord} {offerIds : List String}
    {w : WatchRecord} (hnd : (ws.map WatchRecord.kod).Nodup)
    (hw : w ∈ ws) (hmem : w.kod ∈ offerIds)
    (hq : normalizeQuantity w.kolichestvo = none) :
    Seller.createStocksLoop ws offerIds = none := by
  induction ws generalizing offerIds with
  | nil => cases hw
  | cons w0 ws ih =>
    have hnd2 : (ws.map WatchRecord.kod).Nodup := by
      simp only [List.map_cons, List.nodup_cons] at hnd
      exact hnd.2
    rcases List.mem_cons.mp hw with heq | htail
    · subst heq
      simp only [Seller.createStocksLoop, if_pos hmem, hq]
    · have hkodne : w.kod ≠ w0.kod := by
        intro hk
        have hmem2 : w.kod ∈ ws.map WatchRecord.kod := List.mem_map_of_mem _ htail
        simp only [List.map_cons, List.nodup_cons] at hnd
        exact hnd.1 (hk ▸ hmem2)
      simp only [Seller.createStocksLoop]
      by_cases hm0 : w0.kod ∈ offerIds
      · rw [if_pos hm0]
        cases hq0 : normalizeQuantity w0.kolichestvo with
        | none => rfl
        | some q =>
          have hmem3 : w.kod ∈ offerIds.erase w0.kod :=
            (List.mem_erase_of_ne hkodne).mpr hmem
          rw [ih hnd2 htail hmem3]
      · rw [if_neg hm0]
        exact ih hnd2 htail hmem

/-- Counterexample to claim C9 as stated: two feed records share a
code; the first consumes the offer id, so the second, malformed one is
never parsed and create_stocks succeeds even though a record whose code
is in the offer-id collection has unparseable quantity text. -/
theorem C9_abort_cex :
    (⟨"73397", "p", "oops"⟩ : WatchRecord).kod ∈ (["73397"] : List String) ∧
    ("oops" : String) ≠ ">10" ∧ ("oops" : String) ≠ "1" ∧
    pyInt "oops" = none ∧
    Seller.create_stocks [⟨"73397", "p", "5"⟩, ⟨"73397", "p", "oops"⟩] ["73397"]
      = some ([⟨"73397", 5⟩], []) := by
  refine ⟨by decide, by decide, by decide, by decide, by decide⟩

/-- Claim C9 amended: when the feed records carry pairwise-distinct
codes, a record whose code is enumerated and whose quantity text is
neither sentinel nor a parseable integer makes create_stocks of either
channel return no stock list at all. -/
theorem C9_abort_on_malformed (ws : List WatchRecord) (offerIds : List String)
    (w : WatchRecord) (hnd : (ws.map WatchRecord.kod).Nodup)
    (hw : w ∈ ws) (hmem : w.kod ∈ offerIds)
    (h1 : w.kolichestvo ≠ ">10") (h2 : w.kolichestvo ≠ "1")
    (h3 : pyInt w.kolichestvo = none) (wh : String) (now : Market.PyDateTime) :
    Seller.create_stocks ws offerIds = none ∧
    Market.create_stocks ws offerIds wh now = none := by
  have hq : normalizeQuantity w.kolichestvo = none := by
    simp [normalizeQuantity, h1, h2, h3]
  have hloop := seller_loop_abort hnd hw hmem hq
  constructor
  · simp [Seller.create_stocks, hloop]
  · rw [market_create_stocks_eq]
    simp [Seller.create_stocks, hloop]

/-- Concrete instance of amended claim C9 on a single malformed record. -/
theorem C9_abort_on_malformed_witness :
    (([⟨"73397", "p", "oops"⟩] : List WatchRecord).map WatchRecord.kod).Nodup ∧
    Seller.create_stocks [⟨"73397", "p", "oops"⟩] ["73397"] = none :=
  ⟨by decide,
    (C9_abort_on_malformed [⟨"73397", "p", "oops"⟩] ["73397"] ⟨"73397", "p", "oops"⟩
      (by decide) (by decide) (by decide) (by decide) (by decide) (by decide)
      "WID" ⟨2025, 2, 6, 8, 53, 21, 0⟩).1⟩

/-- A price text with no digit before the first dot converts to the
empty string. -/
theorem price_conversion_empty {s : String}
    (hs : ∀ c ∈ Seller.pySplitDot s.data, c.isDigit = false) :
    Seller.price_conversion s = "" := by
  simp only [Seller.price_conversion]
  rw [List.filter_eq_nil_iff.mpr (by simpa using hs)]

/-- A feed record whose code is enumerated and whose converted price
does not parse as an integer makes market.create_prices fail. -/
theorem market_prices_abort {ws : List WatchRecord} {offerIds : List String}
    {w : WatchRecord} (hw : w ∈ ws) (hmem : w.kod ∈ offerIds)
    (hval : pyInt (Seller.price_conversion w.tsena) = none) :
    Market.create_prices ws offerIds = none := by
  induction ws with
  | nil => cases hw
  | cons w0 ws ih =>
    simp only [Market.create_prices]
    rcases List.mem_cons.mp hw with heq | htail
    · subst heq
      rw [if_pos hmem, hval]
    · by_cases hm0 : w0.kod ∈ offerIds
      · rw [if_pos hm0]
        cases hv0 : pyInt (Seller.price_conversion w0.tsena) with
        | none => rfl
        | some v => rw [ih htail]
      · rw [if_neg hm0]
        exact ih htail

/-- Claim C10: a price string with no ASCII digit before the first dot
converts to the empty string, the empty string does not parse as an
integer, and a matched record with such a price makes
market.create_prices fail instead of emitting a zero price. -/
theorem C10_empty_price_aborts_market
    (s : String) (hs : ∀ c ∈ Seller.pySplitDot s.data, c.isDigit = false)
    (ws : List WatchRecord) (offerIds : List String) (w : WatchRecord)
    (hw : w ∈ ws) (hmem : w.kod ∈ offerIds)
    (hw2 : ∀ c ∈ Seller.pySplitDot w.tsena.data, c.isDigit = false) :
    Seller.price_conversion s = "" ∧
    Seller.price_conversion "руб." = "" ∧
    Seller.price_conversion ".50" = "" ∧
    pyInt "" = none ∧
    Market.create_prices ws offerIds = none := by
  refine ⟨price_conversion_empty hs, by decide, by decide, by decide, ?_⟩
  have hval : pyInt (Seller.price_conversion w.tsena) = none := by
    rw [price_conversion_empty hw2]
    decide
  exact market_prices_abort hw hmem hval

/-- Concrete instance of claim C10 on a currency-only price text. -/
theorem C10_empty_price_aborts_market_witness :
    (∀ c ∈ Seller.pySplitDot ("руб." : String).data, c.isDigit = false) ∧
    Market.create_prices [⟨"73397", "руб.", "5"⟩] ["73397"] = none :=
  ⟨by decide,
    (C10_empty_price_aborts_market "руб." (by decide)
      [⟨"73397", "руб.", "5"⟩] ["73397"] ⟨"73397", "руб.", "5"⟩
      (by decide) (by decide) (by decide)).2.2.2.2⟩

end SellerApis
